import Mathlib

/-!
Verification of the simulated virtual filesystem backing the terminal
(`src/lib/terminal-vfs.ts`).

The TypeScript tree uses `parent` back-pointers on every node.  In this
shallow embedding the tree is the purely functional `FSNode` and a node
together with its parent chain is represented by a `Cursor`: the node paired
with the list of its ancestors, nearest parent first, bottommost element the
root.  `node.parent` becomes the head of the ancestor list (or the root when
the list is empty, matching `current.parent || this.root`), and the
`setParents` construction pass of the source is subsumed by this
representation.  `children` is the mutual inductive `FSList` (a plain list of
nodes) so that all recursions stay structural.

JavaScript string operations are embedded over `List Char`:
`String.split(sep)` (single-character separator) is `splitChar`,
`Array.join(sep)` is `joinWith`, `lastIndexOf` is `lastIdxOf`,
`padStart(5)` is `padStart`.  In the source a directory always carries a
`children` array (possibly empty, which is truthy in JS), so the
`!node.children` guards of the source are vacuous and a directory here
always carries an `FSList`.
-/

namespace TVfs

mutual
inductive FSNode where
  | file (name : String) (content : Option String)
  | dir (name : String) (children : FSList)
deriving DecidableEq, Repr

inductive FSList where
  | nil
  | cons (head : FSNode) (tail : FSList)
deriving DecidableEq, Repr
end

def FSList.toList : FSList → List FSNode
  | .nil => []
  | .cons h t => h :: t.toList

/-- Build an `FSList` from a `List`, used to write the seed tree naturally. -/
def FSList.ofList : List FSNode → FSList
  | [] => .nil
  | h :: t => .cons h (FSList.ofList t)

def FSNode.name : FSNode → String
  | .file n _ => n
  | .dir n _ => n

/-- The `node.type === 'directory'` test of the source. -/
def FSNode.isDir : FSNode → Bool
  | .file _ _ => false
  | .dir _ _ => true

/-! ## Character-level string helpers (JS semantics) -/

/-- JS `String.prototype.split` with a one-character separator: always returns
at least one piece, adjacent separators yield empty pieces. -/
def splitChar (sep : Char) : List Char → List (List Char)
  | [] => [[]]
  | c :: cs =>
    if c = sep then [] :: splitChar sep cs
    else
      match splitChar sep cs with
      | [] => [[c]]
      | p :: ps => (c :: p) :: ps

/-- JS `String.prototype.split` on a `String`, pieces as `String`s. -/
def jsSplit (sep : Char) (s : String) : List String :=
  (splitChar sep s.toList).map (fun cs => String.mk cs)

/-- JS `Array.prototype.join`. -/
def joinWith (sep : String) : List String → String
  | [] => ""
  | [x] => x
  | x :: xs => x ++ sep ++ joinWith sep xs

/-- JS `String.prototype.lastIndexOf` for a one-character needle:
the index of the last occurrence, if any. -/
def lastIdxOf (c : Char) : List Char → Option Nat
  | [] => none
  | x :: xs =>
    match lastIdxOf c xs with
    | some i => some (i + 1)
    | none => if x = c then some 0 else none

/-- JS `String.prototype.padStart(n)`: left-pad with spaces to length `n`. -/
def padStart (s : String) (n : Nat) : String :=
  String.mk (List.replicate (n - s.length) ' ') ++ s

/-- JS `String.prototype.startsWith('/')`. -/
def startsWithSlash (s : String) : Bool := s.toList.head? == some '/'

/-! ## The seed tree (`createInitialFileSystem`) -/

def readme : FSNode :=
  .file "README.txt"
    (some "Welcome to SAIC CyberSec Club.\r\nWe hack. We learn. We defend.\r\nEthical hacking at IIT Mandi.")

def members : FSNode :=
  .file "members.txt"
    (some "SAIC Core Team Members:\r\n\r\nCoordinator:\r\n- Abhinandan Kumar\r\n\r\nCore Team:\r\n- Somit Gond\r\n- Ayush Gaurav\r\n- Utsav\r\n- Divyanshu\r\n- Abhijith R Nair\r\n- Pranav Shirbhate\r\n- Vishnu\r\n- Piyush Panpaliya\r\n- Piyush Dwivedi\r\n- Davda James\r\n- Arani Ghosh\r\n\r\n")

def flag : FSNode := .file "flag.txt" (some "SAIC{w3lc0m3_70_541c}")

def exploits : FSNode :=
  .dir "exploits" (FSList.ofList
    [ .file "cve-2024-1337.py" (some "# Exploit for CVE-2024-1337\nimport os\nprint(\"Exploiting...\")"),
      .file "buffer_overflow.c" (some "// Buffer overflow example\n#include <stdio.h>\nvoid main() \x7b char buf[10]; gets(buf); \x7d")])

def tools : FSNode :=
  .dir "tools" (FSList.ofList
    [ .file "nmap" (some "#!/bin/bash\necho \"Nmap scan initiated...\""),
      .file "metasploit" (some "#!/bin/bash\necho \"Starting Metasploit Framework...\"")])

def secrets : FSNode :=
  .dir "secrets" (FSList.ofList
    [ .file "passwords.txt" (some "admin:admin123\nroot:toor")])

/-- The fixed tree built once by the constructor (`createInitialFileSystem`).
The source's `setParents` pass is subsumed by the `Cursor` representation. -/
def createInitialFileSystem : FSNode :=
  .dir "/" (FSList.ofList [readme, members, flag, exploits, tools, secrets])

/-! ## Cursors: a node plus its chain of parents -/

/-- A node of the tree together with its ancestors, nearest parent first.
This stands for the node references of the source, whose `parent` field is
the head of the ancestor list. -/
abbrev Cursor := FSNode × List FSNode

/-- The root as a cursor: the source's `this.root`. -/
def rootCursor (root : FSNode) : Cursor := (root, [])

/-- The initial current directory: the constructor sets `currentDir = root`. -/
def initialCursor : Cursor := rootCursor createInitialFileSystem

/-- The source's `current.parent || this.root`. -/
def up (root : FSNode) : Cursor → Cursor
  | (_, p :: anc) => (p, anc)
  | (_, []) => (root, [])

/-! ## resolvePath -/

/-- The segment-walking loop of `resolvePath`: `..` moves to the parent
before any directory check; a name segment requires the standing node to be
a directory with a child of exactly that name (`children.find`). -/
def walk (root : FSNode) : Cursor → List String → Option Cursor
  | cur, [] => some cur
  | cur, part :: rest =>
    if part == ".." then walk root (up root cur) rest
    else
      match cur.1 with
      | .file _ _ => none
      | .dir _ cs =>
        match cs.toList.find? (fun child => child.name == part) with
        | some child => walk root (child, cur.1 :: cur.2) rest
        | none => none

/-- `VirtualFileSystem.resolvePath`, translated clause by clause. -/
def resolvePath (root : FSNode) (cur : Cursor) (path : String) : Option Cursor :=
  if path = "/" ∨ path = "~" then some (root, [])
  else if path = "." then some cur
  else if path = ".." then some (up root cur)
  else
    let parts := (jsSplit '/' path).filter (fun p => !(p == "") && !(p == "."))
    let start := if startsWithSlash path then (root, []) else cur
    walk root start parts

/-! ## getPwd -/

/-- `VirtualFileSystem.getPwd`: collect names walking parents up to (and
excluding) the root — in cursor form, all chain elements but the bottom. -/
def getPwd (cur : Cursor) : String :=
  "/" ++ joinWith "/" ((((cur.1 :: cur.2).dropLast).map FSNode.name).reverse)

/-! ## ls -/

/-- One line of the `-l` listing.  JS `child.content ? child.content.length
: 4096` is falsy both for an absent and for an empty content. -/
def lsLongLine (child : FSNode) : String :=
  let typeChar := if child.isDir then "d" else "-"
  let perm := "rwxr-xr-x"
  let size : Nat :=
    match child with
    | .file _ (some c) => if c.length = 0 then 4096 else c.length
    | .file _ none => 4096
    | .dir _ _ => 4096
  let date := "Nov 19 10:00"
  typeChar ++ perm ++ " 1 root root " ++ padStart (toString size) 5 ++ " " ++ date ++ " " ++ child.name

/-- `VirtualFileSystem.ls`.  `args[0] || '.'` makes an absent or empty first
argument default the target to `'.'`. -/
def ls (root : FSNode) (cur : Cursor) (args : List String) : String :=
  let targetPath :=
    match args.head? with
    | some a => if a == "" then "." else a
    | none => "."
  match resolvePath root cur targetPath with
  | none => "ls: cannot access '" ++ targetPath ++ "': No such file or directory"
  | some node =>
    match node.1 with
    | .file n _ => n
    | .dir _ cs =>
      if cs.toList.isEmpty then ""
      else
        let isLong := args.contains "-la" || args.contains "-l" || args.contains "-al"
        if isLong then
          joinWith "\r\n" (cs.toList.map lsLongLine)
        else
          joinWith "  " (cs.toList.map (fun child =>
            if child.isDir then child.name ++ "/" else child.name))

/-! ## cd -/

/-- `VirtualFileSystem.cd`: returns the new current directory together with
the message string (empty on success). -/
def cd (root : FSNode) (cur : Cursor) (path : String) : Cursor × String :=
  if path = "" ∨ path = "~" then ((root, []), "")
  else
    match resolvePath root cur path with
    | none => (cur, "cd: " ++ path ++ ": No such file or directory")
    | some node =>
      if node.1.isDir then (node, "")
      else (cur, "cd: " ++ path ++ ": Not a directory")

/-! ## cat -/

/-- `VirtualFileSystem.cat`.  `node.content || ''` yields the content when
present and the empty string otherwise. -/
def cat (root : FSNode) (cur : Cursor) (args : List String) : String :=
  match args with
  | [] => "cat: missing operand"
  | path :: _ =>
    match resolvePath root cur path with
    | none => "cat: " ++ path ++ ": No such file or directory"
    | some node =>
      match node.1 with
      | .dir _ _ => "cat: " ++ path ++ ": Is a directory"
      | .file _ content => content.getD ""

/-! ## find -/

/-- The path of a child below a recorded path, as in `traverse`:
`currentPath === '/' ? '/'+name : currentPath+'/'+name`. -/
def extendPath (currentPath : String) (childName : String) : String :=
  if currentPath == "/" then "/" ++ childName else currentPath ++ "/" ++ childName

mutual
/-- The recursive `traverse` of `find`: push the recorded path, then recurse
into the children of a directory in stored order. -/
def traverse : FSNode → String → List String
  | .file _ _, currentPath => [currentPath]
  | .dir _ cs, currentPath => currentPath :: traverseList cs currentPath

def traverseList : FSList → String → List String
  | .nil, _ => []
  | .cons child rest, currentPath =>
    traverse child (extendPath currentPath child.name) ++ traverseList rest currentPath
end

/-- `VirtualFileSystem.find`: the initial display path is the literal `path`
argument (the source's `initialDisplayPath` is always `path`). -/
def find (root : FSNode) (cur : Cursor) (path : String) : String :=
  match resolvePath root cur path with
  | none => "find: '" ++ path ++ "': No such file or directory"
  | some node => joinWith "\r\n" (traverse node.1 path)

/-! ## getCompletions -/

/-- `VirtualFileSystem.getCompletions`, translated clause by clause. -/
def getCompletions (root : FSNode) (cur : Cursor) (input : String) : List String :=
  let tokens := jsSplit ' ' input
  let lastToken := tokens.getLastD ""
  let sp :=
    match lastIdxOf '/' lastToken.toList with
    | none => (".", lastToken)
    | some i =>
      let before := String.mk (lastToken.toList.take i)
      let after := String.mk (lastToken.toList.drop (i + 1))
      ((if before == "" then "/" else before), after)
  match resolvePath root cur sp.1 with
  | none => []
  | some node =>
    match node.1 with
    | .file _ _ => []
    | .dir _ cs =>
      (cs.toList.filter (fun child => sp.2.toList.isPrefixOf child.name.toList)).map
        (fun child => if child.isDir then child.name ++ "/" else child.name)

/-! ## Derived structure used by the verification -/

/-- The children of a node as a plain list (empty for a file). -/
def FSNode.childrenL : FSNode → List FSNode
  | .file _ _ => []
  | .dir _ cs => cs.toList

mutual
/-- All nodes of a tree, in pre-order. -/
def nodesOf : FSNode → List FSNode
  | .file n c => [.file n c]
  | .dir n cs => .dir n cs :: nodesOfL cs

def nodesOfL : FSList → List FSNode
  | .nil => []
  | .cons h t => nodesOf h ++ nodesOfL t
end

mutual
/-- The number of nodes of a tree. -/
def countNodes : FSNode → Nat
  | .file _ _ => 1
  | .dir _ cs => 1 + countList cs

def countList : FSList → Nat
  | .nil => 0
  | .cons h t => countNodes h + countList t
end

/-- A string usable as one resolvable path segment: nonempty, not a `.` or
`..` pseudo-segment, and free of the separator. -/
def validSeg (s : String) : Bool :=
  !(s == "") && !(s == ".") && !(s == "..") && !(s.toList.contains '/')

/-- A cursor chain is coherent when its bottom is the root and every element
is the child its parent's `find` lookup returns for its own name (with a
name usable as a path segment).  This is the invariant every state reachable
through the public operations maintains. -/
def goodChain (root : FSNode) : FSNode → List FSNode → Bool
  | c, [] => c == root
  | c, p :: anc =>
    goodChain root p anc &&
    (match p with
     | .file _ _ => false
     | .dir _ cs => cs.toList.find? (fun ch => ch.name == c.name) == some c) &&
    validSeg c.name

def goodCursor (root : FSNode) (cur : Cursor) : Bool :=
  goodChain root cur.1 cur.2

/-- The segments `getPwd` renders, root side first. -/
def pwdSegs (cur : Cursor) : List String :=
  (((cur.1 :: cur.2).dropLast).map FSNode.name).reverse

/-- Every file of the tree has a present, nonempty content (true of the seed
tree; JS renders the size of an absent or empty content as 4096). -/
def filesNonEmpty (root : FSNode) : Bool :=
  (nodesOf root).all (fun n =>
    match n with
    | .file _ (some c) => !(c == "")
    | .file _ none => false
    | .dir _ _ => true)

/-- Every node name of the tree is free of line feeds. -/
def namesLfFree (root : FSNode) : Bool :=
  (nodesOf root).all (fun n => !(n.name.toList.contains '\n'))

/-! ## Spec-modelled definitions

These follow the wording of the specification, to be compared with the
definitions translated from the source. -/

/-- Modelled from the spec: one step of the resolution walk of section 4.2 —
for segment `..` move to the parent (root if none); for a name segment the
standing node must be a directory with a child of exactly that name. -/
def specStep (root : FSNode) (acc : Option Cursor) (seg : String) : Option Cursor :=
  match acc with
  | none => none
  | some c =>
    if seg == ".." then some (up root c)
    else
      match c.1 with
      | .file _ _ => none
      | .dir _ cs =>
        match cs.toList.find? (fun child => child.name == seg) with
        | some child => some (child, c.1 :: c.2)
        | none => none

/-- Modelled from the spec: the resolution algorithm of section 4.2 —
special-case the exact literals, split on `/` discarding empty and bare `.`
segments, start at the root exactly when the expression begins with `/`,
then fold the walk steps left to right. -/
def resolvePathSpec (root : FSNode) (cur : Cursor) (path : String) : Option Cursor :=
  if path = "/" ∨ path = "~" then some (root, [])
  else if path = "." then some cur
  else if path = ".." then some (up root cur)
  else
    let segs := (jsSplit '/' path).filter (fun p => !(p == "") && !(p == "."))
    let start := if startsWithSlash path then (root, []) else cur
    segs.foldl (specStep root) (some start)

/-- Modelled from the spec: the long-format line of section 4.4, with the
size field the byte length of a file content (`4096` for a directory). -/
def lsLongLineSpec (child : FSNode) : String :=
  let typeChar := if child.isDir then "d" else "-"
  let perm := "rwxr-xr-x"
  let size : Nat :=
    match child with
    | .file _ c => (c.getD "").length
    | .dir _ _ => 4096
  let date := "Nov 19 10:00"
  typeChar ++ perm ++ " 1 root root " ++ padStart (toString size) 5 ++ " " ++ date ++ " " ++ child.name

/-- Modelled from the spec: the list operation of section 4.4 (the target
and flag extraction kept as in the source; their interaction is claim C8). -/
def lsSpec (root : FSNode) (cur : Cursor) (args : List String) : String :=
  let targetPath :=
    match args.head? with
    | some a => if a == "" then "." else a
    | none => "."
  match resolvePathSpec root cur targetPath with
  | none => "ls: cannot access '" ++ targetPath ++ "': No such file or directory"
  | some node =>
    match node.1 with
    | .file n _ => n
    | .dir _ cs =>
      if cs.toList.isEmpty then ""
      else
        let isLong := args.contains "-la" || args.contains "-l" || args.contains "-al"
        if isLong then
          joinWith "\r\n" (cs.toList.map lsLongLineSpec)
        else
          joinWith "  " (cs.toList.map (fun child =>
            if child.isDir then child.name ++ "/" else child.name))

/-- Modelled from the spec: an iterative pre-order depth-first traversal
over a worklist of (node, recorded path) pairs, emitting one path per
visited node, children pushed in stored sibling order (section 4.7). -/
def sizesToListLe : (l : FSList) → ((l.toList.map (fun x => sizeOf x)).sum) ≤ sizeOf l
  | .nil => by simp [FSList.toList]
  | .cons h t => by
    have ih := sizesToListLe t
    simp [FSList.toList]
    omega

def dfsPaths : List (FSNode × String) → List String
  | [] => []
  | (n, p) :: rest =>
    p :: dfsPaths ((n.childrenL.map (fun c => (c, extendPath p c.name))) ++ rest)
termination_by l => (l.map (fun x => sizeOf x.1)).sum
decreasing_by
  simp_wf
  have h : ((FSNode.childrenL n).map (fun x => sizeOf x)).sum < sizeOf n := by
    cases n with
    | file nm c => simp [FSNode.childrenL]
    | dir nm cs =>
      have h2 := sizesToListLe cs
      simp [FSNode.childrenL]
      omega
  simpa [Function.comp] using h

/-- Modelled from the spec: split a token at its last `/`, when it has one,
into the text before and the text after (section 4.8). -/
def splitAtLastSlash : List Char → Option (List Char × List Char)
  | [] => none
  | c :: cs =>
    match splitAtLastSlash cs with
    | some (b, a) => some (c :: b, a)
    | none => if c = '/' then some ([], cs) else none

/-- The suggestions a directory node offers for a partial name: children
whose name starts with it, directories suffixed with `/`. -/
def matchChildren (node : Cursor) (pn : String) : List String :=
  match node.1 with
  | .file _ _ => []
  | .dir _ cs =>
    (cs.toList.filter (fun child => pn.toList.isPrefixOf child.name.toList)).map
      (fun child => if child.isDir then child.name ++ "/" else child.name)

/-- Modelled from the spec: the completion operation of section 4.8 — the
last space-delimited token is completed; with a `/` the text before the last
`/` (the root when empty) is resolved and the text after it matched;
without one the current directory is searched with the whole token. -/
def completionsSpec (root : FSNode) (cur : Cursor) (input : String) : List String :=
  let lastToken := (jsSplit ' ' input).getLastD ""
  match splitAtLastSlash lastToken.toList with
  | none => matchChildren cur lastToken
  | some (before, after) =>
    let sd := if before.isEmpty then "/" else String.mk before
    match resolvePathSpec root cur sd with
    | none => []
    | some node => matchChildren node (String.mk after)

/-! ## Line-ending predicates -/

/-- Scan for a line feed not immediately preceded by a carriage return,
`prev` being the character before the scanned suffix. -/
def noBareLFAux (prev : Char) : List Char → Bool
  | [] => true
  | c :: rest => (if c = '\n' then prev == '\r' else true) && noBareLFAux c rest

/-- Every line feed of the string is immediately preceded by a carriage
return: the string uses CRLF as its line separator consistently. -/
def crlfConsistent (s : String) : Bool := noBareLFAux 'a' s.toList

/-! ## Lemmas about the string helpers -/

theorem toList_append (a b : String) : (a ++ b).toList = a.toList ++ b.toList := by
  simp [String.toList, String.data_append]

theorem splitChar_ne_nil (sep : Char) (l : List Char) : splitChar sep l ≠ [] := by
  induction l with
  | nil => simp [splitChar]
  | cons c cs ih =>
    simp only [splitChar]
    by_cases h : c = sep
    · simp [h]
    · simp only [h, if_false]
      cases hs : splitChar sep cs with
      | nil => simp
      | cons p ps => simp

theorem splitChar_append_sep (sep : Char) (l1 l2 : List Char) :
    splitChar sep (l1 ++ sep :: l2) = splitChar sep l1 ++ splitChar sep l2 := by
  induction l1 with
  | nil => simp [splitChar]
  | cons c cs ih =>
    simp only [List.cons_append, splitChar, List.append_eq]
    by_cases h : c = sep
    · simp [h, ih]
    · simp only [h, if_false]
      rw [ih]
      cases hs : splitChar sep cs with
      | nil => exact absurd hs (splitChar_ne_nil sep cs)
      | cons p ps => simp

theorem splitChar_of_not_mem {sep : Char} {l : List Char} (h : sep ∉ l) :
    splitChar sep l = [l] := by
  induction l with
  | nil => rfl
  | cons c cs ih =>
    simp only [List.mem_cons, not_or] at h
    simp only [splitChar, if_neg (Ne.symm h.1)]
    rw [ih h.2]

theorem not_mem_of_mem_splitChar {sep : Char} {l p : List Char}
    (h : p ∈ splitChar sep l) : sep ∉ p := by
  induction l generalizing p with
  | nil =>
    simp [splitChar] at h
    simp [h]
  | cons c cs ih =>
    simp only [splitChar] at h
    by_cases hc : c = sep
    · simp only [hc, if_true, List.mem_cons] at h
      rcases h with h | h
      · simp [h]
      · exact ih h
    · simp only [hc, if_false] at h
      cases hs : splitChar sep cs with
      | nil => exact absurd hs (splitChar_ne_nil sep cs)
      | cons q qs =>
        rw [hs] at h
        rcases List.mem_cons.mp h with h | h
        · subst h
          have hq : sep ∉ q := ih (hs ▸ List.mem_cons_self q qs)
          simp [List.mem_cons, hc, hq]
          intro hcontra
          exact hc hcontra.symm
        · exact ih (hs ▸ List.mem_cons_of_mem q h)

/-! ## Lemmas about the resolution walk -/

theorem walk_append (root : FSNode) (l1 l2 : List String) :
    ∀ c : Cursor, walk root c (l1 ++ l2) = (walk root c l1).bind (fun c2 => walk root c2 l2) := by
  induction l1 with
  | nil => intro c; simp [walk]
  | cons part rest ih =>
    intro c
    obtain ⟨c1, anc⟩ := c
    simp only [List.cons_append, walk]
    by_cases h : (part == "..") = true
    · simp only [h, if_true]
      exact ih _
    · simp only [h, if_false]
      cases c1 with
      | file n co => simp
      | dir n cs =>
        cases hf : cs.toList.find? (fun child => child.name == part) with
        | none => simp [hf]
        | some child => simpa [hf] using ih _

theorem foldl_specStep_none (root : FSNode) (l : List String) :
    l.foldl (specStep root) none = none := by
  induction l with
  | nil => rfl
  | cons s rest ih => simpa [specStep] using ih

theorem walk_eq_foldl (root : FSNode) (l : List String) :
    ∀ c : Cursor, walk root c l = l.foldl (specStep root) (some c) := by
  induction l with
  | nil => intro c; simp [walk]
  | cons part rest ih =>
    intro c
    obtain ⟨c1, anc⟩ := c
    simp only [walk, List.foldl_cons]
    by_cases h : (part == "..") = true
    · simp only [specStep, h, if_true]
      exact ih _
    · simp only [specStep, h, if_false]
      cases c1 with
      | file n co => simp [foldl_specStep_none]
      | dir n cs =>
        cases hf : cs.toList.find? (fun child => child.name == part) with
        | none => simp [hf, foldl_specStep_none]
        | some child => simp [hf, ih]

/-- A shared fact: the source resolver and the spec-worded resolver agree
everywhere. -/
theorem resolvePath_eq_spec (root : FSNode) (cur : Cursor) (path : String) :
    resolvePath root cur path = resolvePathSpec root cur path := by
  unfold resolvePath resolvePathSpec
  by_cases h1 : path = "/" ∨ path = "~"
  · simp [h1]
  · by_cases h2 : path = "."
    · simp [h1, h2]
    · by_cases h3 : path = ".."
      · simp [h1, h2, h3]
      · simp only [h1, h2, h3, if_false]
        exact walk_eq_foldl root _ _

/-- C1: `resolvePath` follows the specified algorithm — the exact literals
`/`, `~`, `.`, `..` are special-cased, any other expression is split on `/`
with empty and bare `.` segments discarded, the walk starts at the root
exactly when the expression begins with `/`, `..` segments move to the
parent (root if none), name segments require a directory with a child of
exactly that name, and failure is the not-found result, never an error. -/
theorem C1_resolvePath_follows_spec (root : FSNode) (cur : Cursor) (p : String) :
    resolvePath root cur p = resolvePathSpec root cur p :=
  resolvePath_eq_spec root cur p

/-- C2: `cd` with an empty path or `~` resets to the root and returns `""`;
a path that does not resolve returns the not-found message and leaves the
current directory untouched; a path resolving to a file returns the
not-a-directory message and leaves the current directory untouched; only a
path resolving to a directory reassigns the current directory, returning
`""`. -/
theorem C2_cd_error_handling (root : FSNode) (cur : Cursor) (path : String) :
    (path = "" ∨ path = "~" → cd root cur path = ((root, []), "")) ∧
    (path ≠ "" → path ≠ "~" → resolvePath root cur path = none →
      cd root cur path = (cur, "cd: " ++ path ++ ": No such file or directory")) ∧
    (∀ node, path ≠ "" → path ≠ "~" → resolvePath root cur path = some node →
      (node.1.isDir = false → cd root cur path = (cur, "cd: " ++ path ++ ": Not a directory")) ∧
      (node.1.isDir = true → cd root cur path = (node, ""))) := by
  refine ⟨fun h => by simp [cd, h], fun h1 h2 hr => ?_, fun node h1 h2 hr => ⟨fun hd => ?_, fun hd => ?_⟩⟩
  · simp [cd, h1, h2, hr]
  · simp [cd, h1, h2, hr, hd]
  · simp [cd, h1, h2, hr, hd]

/-- Witness for C2 at the spec's concrete scenario: `cd doesnotexist` from
the initial state produces the not-found message and no mutation. -/
theorem C2_cd_witness :
    cd createInitialFileSystem initialCursor "doesnotexist"
      = (initialCursor, "cd: doesnotexist: No such file or directory") :=
  (C2_cd_error_handling createInitialFileSystem initialCursor "doesnotexist").2.1
    (by decide) (by decide) rfl

/-- C5: `cat` without arguments reports a missing operand; an unresolvable
path yields the not-found message; a directory yields exactly the
is-a-directory message (never child names); a file yields its content
verbatim, the empty string when content is absent. -/
theorem C5_cat_error_handling (root : FSNode) (cur : Cursor) (args : List String) :
    (args = [] → cat root cur args = "cat: missing operand") ∧
    (∀ p rest, args = p :: rest →
      (resolvePath root cur p = none →
        cat root cur args = "cat: " ++ p ++ ": No such file or directory") ∧
      (∀ node, resolvePath root cur p = some node →
        (∀ nm cs, node.1 = FSNode.dir nm cs →
          cat root cur args = "cat: " ++ p ++ ": Is a directory") ∧
        (∀ nm content, node.1 = FSNode.file nm content →
          cat root cur args = content.getD ""))) := by
  refine ⟨fun h => by simp [cat, h], fun p rest h => ?_⟩
  subst h
  refine ⟨fun hr => by simp [cat, hr], fun node hr => ⟨fun nm cs hn => ?_, fun nm content hn => ?_⟩⟩
  · simp [cat, hr, hn]
  · simp [cat, hr, hn]

/-- Witness for C5 at the spec's concrete scenario: `cat flag.txt` from the
initial state returns the file content verbatim. -/
theorem C5_cat_witness :
    cat createInitialFileSystem initialCursor ["flag.txt"] = "SAIC{w3lc0m3_70_541c}" := by
  have h := (((C5_cat_error_handling createInitialFileSystem initialCursor
      ["flag.txt"]).2 "flag.txt" [] rfl).2 (flag, [createInitialFileSystem]) rfl).2
      "flag.txt" (some "SAIC{w3lc0m3_70_541c}") rfl
  simpa using h

/-- C10: a `..` segment is applied before the standing node is checked to be
a directory, so appending `/..` to an expression that resolves to a file
resolves to the file's parent instead of failing. -/
theorem C10_dotdot_after_file (root : FSNode) (cur : Cursor) (P : String)
    (f d : FSNode) (anc : List FSNode)
    (hc : cur.1.isDir = true)
    (hP : resolvePath root cur P = some (f, d :: anc))
    (hf : f.isDir = false) :
    resolvePath root cur (P ++ "/..") = some (d, anc) := by
  by_cases h1 : P = "/" ∨ P = "~"
  · rw [resolvePath, if_pos h1] at hP
    simp at hP
  · by_cases h2 : P = "."
    · subst h2
      have hcur : cur = (f, d :: anc) := by simpa [resolvePath] using hP
      rw [hcur] at hc
      simp [hf] at hc
    · by_cases h3 : P = ".."
      · subst h3
        have hup : up root cur = (f, d :: anc) := by simpa [resolvePath] using hP
        have hres : resolvePath root cur (".." ++ "/..") = some (up root (up root cur)) := rfl
        rw [hres, hup]
        rfl
      · rcases eq_or_ne P "" with rfl | hPne
        · have : resolvePath root cur "" = some cur := rfl
          rw [this] at hP
          have hcur : cur = (f, d :: anc) := by simpa using hP
          rw [hcur] at hc
          simp [hf] at hc
        · -- the general branch of the resolver applies on both sides
          obtain ⟨c0, cs0, hPl⟩ : ∃ c0 cs0, P.toList = c0 :: cs0 := by
            cases hl : P.toList with
            | nil =>
              exact absurd (String.ext (hl.trans rfl)) hPne
            | cons c0 cs0 => exact ⟨c0, cs0, rfl⟩
          have hl3 : ("/.." : String).length = 3 := rfl
          have h4 : ¬(P ++ "/.." = "/" ∨ P ++ "/.." = "~") := by
            rintro (h | h) <;>
              (have h' := congrArg String.length h;
               rw [String.length_append, hl3] at h';
               first
               | rw [show ("/" : String).length = 1 from rfl] at h'; omega
               | rw [show ("~" : String).length = 1 from rfl] at h'; omega)
          have h5 : P ++ "/.." ≠ "." := by
            intro h
            have h' := congrArg String.length h
            rw [String.length_append, hl3, show ("." : String).length = 1 from rfl] at h'
            omega
          have h6 : P ++ "/.." ≠ ".." := by
            intro h
            have h' := congrArg String.length h
            rw [String.length_append, hl3, show (".." : String).length = 2 from rfl] at h'
            omega
          have hsplit : jsSplit '/' (P ++ "/..") = jsSplit '/' P ++ [".."] := by
            unfold jsSplit
            rw [toList_append]
            have : ("/.." : String).toList = '/' :: ['.', '.'] := rfl
            rw [this, splitChar_append_sep]
            rw [splitChar_of_not_mem (by decide : '/' ∉ ['.', '.'])]
            simp
          have hstart : startsWithSlash (P ++ "/..") = startsWithSlash P := by
            unfold startsWithSlash
            rw [toList_append, hPl]
            simp
          rw [resolvePath, if_neg h1, if_neg h2, if_neg h3] at hP
          rw [resolvePath, if_neg h4, if_neg h5, if_neg h6]
          simp only [hsplit, hstart, List.filter_append]
          have hkeep : List.filter (fun p => !(p == "") && !(p == ".")) [".."] = [".."] := rfl
          rw [hkeep, walk_append]
          simp only at hP
          rw [hP]
          rfl

/-- Witness for C10: `flag.txt` resolves to a file under the root, and
`flag.txt/..` resolves to the root. -/
theorem C10_dotdot_after_file_witness :
    resolvePath createInitialFileSystem initialCursor ("flag.txt" ++ "/..")
      = some (createInitialFileSystem, []) :=
  C10_dotdot_after_file createInitialFileSystem initialCursor "flag.txt"
    flag createInitialFileSystem [] rfl rfl rfl

/-! ## The cursor invariant is preserved by resolution -/

theorem up_good {root : FSNode} {cur : Cursor} (hg : goodCursor root cur = true) :
    goodCursor root (up root cur) = true := by
  obtain ⟨c, anc⟩ := cur
  cases anc with
  | nil => simp [goodCursor, goodChain, up]
  | cons p anc =>
    simp only [goodCursor, goodChain, Bool.and_eq_true] at hg
    simpa [goodCursor, up] using hg.1.1

theorem walk_good {root : FSNode} :
    ∀ (segs : List String) (cur c' : Cursor),
      (∀ s ∈ segs, s ≠ "" ∧ s ≠ "." ∧ '/' ∉ s.toList) →
      goodCursor root cur = true →
      walk root cur segs = some c' →
      goodCursor root c' = true := by
  intro segs
  induction segs with
  | nil =>
    intro cur c' _ hg hw
    simp [walk] at hw
    exact hw ▸ hg
  | cons part rest ih =>
    intro cur c' hsegs hg hw
    have hpart := hsegs part (List.mem_cons_self part rest)
    have hrest : ∀ s ∈ rest, s ≠ "" ∧ s ≠ "." ∧ '/' ∉ s.toList :=
      fun s hs => hsegs s (List.mem_cons_of_mem part hs)
    obtain ⟨c1, anc⟩ := cur
    simp only [walk] at hw
    by_cases hdd : (part == "..") = true
    · rw [if_pos hdd] at hw
      exact ih _ _ hrest (up_good hg) hw
    · rw [if_neg hdd] at hw
      cases c1 with
      | file n co => simp at hw
      | dir n cs =>
        simp only at hw
        cases hf : cs.toList.find? (fun child => child.name == part) with
        | none => rw [hf] at hw; simp at hw
        | some child =>
          rw [hf] at hw
          have hname : child.name = part := by
            have := List.find?_some hf
            exact eq_of_beq this
          have hchild : goodCursor root (child, FSNode.dir n cs :: anc) = true := by
            simp only [goodCursor, goodChain, Bool.and_eq_true]
            refine ⟨⟨hg, ?_⟩, ?_⟩
            · rw [hname, hf]
              simp
            · have hne : part ≠ ".." := by
                intro h
                exact hdd (by simp [h])
              simp [validSeg, hname, hpart.1, hpart.2.1, hne]
              exact hpart.2.2
          exact ih _ _ hrest hchild hw

theorem resolve_good {root : FSNode} {cur c' : Cursor} {p : String}
    (hg : goodCursor root cur = true)
    (hr : resolvePath root cur p = some c') :
    goodCursor root c' = true := by
  rw [resolvePath] at hr
  by_cases h1 : p = "/" ∨ p = "~"
  · rw [if_pos h1] at hr
    simp at hr
    simp [← hr, goodCursor, goodChain]
  · rw [if_neg h1] at hr
    by_cases h2 : p = "."
    · rw [if_pos h2] at hr
      simp at hr
      exact hr ▸ hg
    · rw [if_neg h2] at hr
      by_cases h3 : p = ".."
      · rw [if_pos h3] at hr
        simp at hr
        exact hr ▸ up_good hg
      · rw [if_neg h3] at hr
        simp only at hr
        have hsegs : ∀ s ∈ (jsSplit '/' p).filter (fun q => !(q == "") && !(q == ".")),
            s ≠ "" ∧ s ≠ "." ∧ '/' ∉ s.toList := by
          intro s hs
          rw [List.mem_filter] at hs
          obtain ⟨hmem, hpred⟩ := hs
          simp only [Bool.and_eq_true, Bool.not_eq_true'] at hpred
          refine ⟨by simpa using hpred.1, by simpa using hpred.2, ?_⟩
          unfold jsSplit at hmem
          rw [List.mem_map] at hmem
          obtain ⟨q, hq, rfl⟩ := hmem
          exact not_mem_of_mem_splitChar hq
        by_cases hs : startsWithSlash p = true
        · rw [if_pos hs] at hr
          exact walk_good _ _ _ hsegs (by simp [goodCursor, goodChain]) hr
        · rw [if_neg hs] at hr
          exact walk_good _ _ _ hsegs hg hr

/-! ## Nodes reached through good cursors belong to the tree -/

theorem mem_nodesOf_self (n : FSNode) : n ∈ nodesOf n := by
  cases n <;> simp [nodesOf]

theorem mem_nodesOfL_of_mem_toList :
    ∀ (cs : FSList) (x : FSNode), x ∈ cs.toList → x ∈ nodesOfL cs
  | .nil, x, hx => by simp [FSList.toList] at hx
  | .cons h t, x, hx => by
    simp only [FSList.toList, List.mem_cons] at hx
    rcases hx with rfl | hx
    · simp only [nodesOfL, List.mem_append]
      exact Or.inl (mem_nodesOf_self x)
    · simp only [nodesOfL, List.mem_append]
      exact Or.inr (mem_nodesOfL_of_mem_toList t x hx)

mutual
theorem children_closed_node :
    ∀ (n x y : FSNode), x ∈ nodesOf n → y ∈ x.childrenL → y ∈ nodesOf n
  | .file nm c, x, y, hx, hy => by
    simp only [nodesOf, List.mem_singleton] at hx
    subst hx
    simp [FSNode.childrenL] at hy
  | .dir nm cs, x, y, hx, hy => by
    simp only [nodesOf, List.mem_cons] at hx
    rcases hx with rfl | hx
    · simp only [FSNode.childrenL] at hy
      simp only [nodesOf, List.mem_cons]
      exact Or.inr (mem_nodesOfL_of_mem_toList cs y hy)
    · simp only [nodesOf, List.mem_cons]
      exact Or.inr (children_closed_list cs x y hx hy)

theorem children_closed_list :
    ∀ (cs : FSList) (x y : FSNode), x ∈ nodesOfL cs → y ∈ x.childrenL → y ∈ nodesOfL cs
  | .nil, x, y, hx, _ => by simp [nodesOfL] at hx
  | .cons h t, x, y, hx, hy => by
    simp only [nodesOfL, List.mem_append] at hx
    rcases hx with hx | hx
    · simp only [nodesOfL, List.mem_append]
      exact Or.inl (children_closed_node h x y hx hy)
    · simp only [nodesOfL, List.mem_append]
      exact Or.inr (children_closed_list t x y hx hy)
end

theorem good_mem_nodesOf {root : FSNode} :
    ∀ (anc : List FSNode) (c : FSNode), goodChain root c anc = true → c ∈ nodesOf root := by
  intro anc
  induction anc with
  | nil =>
    intro c hg
    simp only [goodChain] at hg
    have : c = root := eq_of_beq hg
    exact this ▸ mem_nodesOf_self root
  | cons p anc ih =>
    intro c hg
    simp only [goodChain, Bool.and_eq_true] at hg
    have hp : p ∈ nodesOf root := ih p hg.1.1
    have hfind := hg.1.2
    cases p with
    | file nm co => simp at hfind
    | dir nm cs =>
      simp only at hfind
      have hmem : c ∈ cs.toList := by
        have : cs.toList.find? (fun ch => ch.name == c.name) = some c := by
          cases hf : cs.toList.find? (fun ch => ch.name == c.name) with
          | none => rw [hf] at hfind; simp at hfind
          | some c2 =>
            rw [hf] at hfind
            have h2 : c2 = c := by simpa using hfind
            rw [h2]
        exact List.mem_of_find?_eq_some this
      exact children_closed_node _ _ _ hp (by simpa [FSNode.childrenL] using hmem)

/-! ## Reconstructing the current directory from its printed path -/

theorem pwdSegs_nil (c : FSNode) : pwdSegs (c, []) = [] := by
  simp [pwdSegs]

theorem pwdSegs_cons (c p : FSNode) (anc : List FSNode) :
    pwdSegs (c, p :: anc) = pwdSegs (p, anc) ++ [c.name] := by
  simp [pwdSegs, List.dropLast_cons₂]

theorem getPwd_eq (cur : Cursor) : getPwd cur = "/" ++ joinWith "/" (pwdSegs cur) := rfl

theorem pwdSegs_valid {root : FSNode} :
    ∀ (anc : List FSNode) (c : FSNode), goodChain root c anc = true →
      ∀ s ∈ pwdSegs (c, anc), validSeg s = true := by
  intro anc
  induction anc with
  | nil =>
    intro c _ s hs
    rw [pwdSegs_nil] at hs
    simp at hs
  | cons p anc ih =>
    intro c hg s hs
    simp only [goodChain, Bool.and_eq_true] at hg
    rw [pwdSegs_cons, List.mem_append] at hs
    rcases hs with hs | hs
    · exact ih p hg.1.1 s hs
    · simp only [List.mem_singleton] at hs
      exact hs ▸ hg.2

theorem walk_pwdSegs {root : FSNode} :
    ∀ (anc : List FSNode) (c : FSNode), goodChain root c anc = true →
      walk root (root, []) (pwdSegs (c, anc)) = some (c, anc) := by
  intro anc
  induction anc with
  | nil =>
    intro c hg
    simp only [goodChain] at hg
    have : c = root := eq_of_beq hg
    subst this
    rw [pwdSegs_nil]
    rfl
  | cons p anc ih =>
    intro c hg
    simp only [goodChain, Bool.and_eq_true] at hg
    rw [pwdSegs_cons, walk_append, ih p hg.1.1]
    have hvalid := hg.2
    simp only [validSeg, Bool.and_eq_true, Bool.not_eq_true'] at hvalid
    have hfind := hg.1.2
    cases p with
    | file nm co => simp at hfind
    | dir nm cs =>
      simp only at hfind
      have hsome : cs.toList.find? (fun ch => ch.name == c.name) = some c := by
        cases hf : cs.toList.find? (fun ch => ch.name == c.name) with
        | none => rw [hf] at hfind; simp at hfind
        | some c2 =>
          rw [hf] at hfind
          have h2 : c2 = c := by simpa using hfind
          rw [h2]
      simp only [Option.some_bind, walk]
      rw [if_neg (by simp [hvalid.1.2])]
      simp only [hsome]

theorem str_toList_ne_nil {s : String} (h : s ≠ "") : s.toList ≠ [] := by
  intro hl
  exact h (String.ext hl)

theorem joinWith_toList_ne_nil :
    ∀ (segs : List String), segs ≠ [] → (∀ s ∈ segs, s ≠ "") →
      (joinWith "/" segs).toList ≠ [] := by
  intro segs
  cases segs with
  | nil => intro h; exact absurd rfl h
  | cons x rest =>
    intro _ hne
    cases rest with
    | nil =>
      exact str_toList_ne_nil (hne x (List.mem_cons_self x []))
    | cons y rest2 =>
      show ((x ++ "/" ++ joinWith "/" (y :: rest2)).toList ≠ [])
      rw [toList_append, toList_append]
      simp

theorem splitChar_joinWith :
    ∀ (segs : List String), segs ≠ [] → (∀ s ∈ segs, '/' ∉ s.toList) →
      splitChar '/' ((joinWith "/" segs).toList) = segs.map String.toList := by
  intro segs
  induction segs with
  | nil => intro h; exact absurd rfl h
  | cons x rest ih =>
    intro _ hfree
    have hx : '/' ∉ x.toList := hfree x (List.mem_cons_self x rest)
    cases rest with
    | nil =>
      show splitChar '/' x.toList = [x.toList]
      exact splitChar_of_not_mem hx
    | cons y rest2 =>
      have hrest : ∀ s ∈ y :: rest2, '/' ∉ s.toList :=
        fun s hs => hfree s (List.mem_cons_of_mem x hs)
      show splitChar '/' ((x ++ "/" ++ joinWith "/" (y :: rest2)).toList) = _
      rw [toList_append, toList_append]
      have : ("/" : String).toList = ['/'] := rfl
      rw [this]
      have hassoc : x.toList ++ ['/'] ++ (joinWith "/" (y :: rest2)).toList
          = x.toList ++ '/' :: (joinWith "/" (y :: rest2)).toList := by simp
      rw [hassoc, splitChar_append_sep, splitChar_of_not_mem hx,
        ih (by simp) hrest]
      rfl

theorem filter_of_valid (segs : List String) (hv : ∀ s ∈ segs, validSeg s = true) :
    List.filter (fun p => !(p == "") && !(p == ".")) segs = segs := by
  rw [List.filter_eq_self]
  intro s hs
  have := hv s hs
  simp only [validSeg, Bool.and_eq_true] at this
  simp [this.1.1.1, this.1.1.2]

/-- The printed working directory resolves, from any state, back to exactly
the cursor it was printed from. -/
theorem resolve_getPwd {root : FSNode} {cur : Cursor} (hg : goodCursor root cur = true)
    (cur2 : Cursor) : resolvePath root cur2 (getPwd cur) = some cur := by
  obtain ⟨c, anc⟩ := cur
  cases anc with
  | nil =>
    have hc : c = root := eq_of_beq hg
    subst hc
    have hpwd : getPwd (c, ([] : List FSNode)) = "/" := rfl
    rw [hpwd]
    rfl
  | cons p anc =>
    have hgc : goodChain root c (p :: anc) = true := hg
    have hvalid := @pwdSegs_valid root (p :: anc) c hgc
    have hsegne : pwdSegs (c, p :: anc) ≠ [] := by
      rw [pwdSegs_cons]
      simp
    have hsegnempty : ∀ s ∈ pwdSegs (c, p :: anc), s ≠ "" := by
      intro s hs
      have := hvalid s hs
      simp only [validSeg, Bool.and_eq_true, Bool.not_eq_true'] at this
      simpa using this.1.1.1
    have hsegfree : ∀ s ∈ pwdSegs (c, p :: anc), '/' ∉ s.toList := by
      intro s hs
      have := hvalid s hs
      simp only [validSeg, Bool.and_eq_true, Bool.not_eq_true'] at this
      simpa using this.2
    have hjne := joinWith_toList_ne_nil _ hsegne hsegnempty
    have htl : (getPwd (c, p :: anc)).toList
        = '/' :: (joinWith "/" (pwdSegs (c, p :: anc))).toList := by
      rw [getPwd_eq, toList_append]
      rfl
    have hs1 : ¬(getPwd (c, p :: anc) = "/" ∨ getPwd (c, p :: anc) = "~") := by
      rintro (h | h) <;> rw [h] at htl
      · exact hjne (by simpa using htl.symm)
      · simp at htl
    have hs2 : getPwd (c, p :: anc) ≠ "." := by
      intro h
      rw [h] at htl
      simp at htl
    have hs3 : getPwd (c, p :: anc) ≠ ".." := by
      intro h
      rw [h] at htl
      simp at htl
    rw [resolvePath, if_neg hs1, if_neg hs2, if_neg hs3]
    have hsplit : jsSplit '/' (getPwd (c, p :: anc)) = "" :: pwdSegs (c, p :: anc) := by
      unfold jsSplit
      rw [htl]
      have hhead : splitChar '/' ('/' :: (joinWith "/" (pwdSegs (c, p :: anc))).toList)
          = [] :: splitChar '/' ((joinWith "/" (pwdSegs (c, p :: anc))).toList) := by
        simp [splitChar]
      rw [hhead, splitChar_joinWith _ hsegne hsegfree]
      simp only [List.map_cons, List.map_map]
      have : (pwdSegs (c, p :: anc)).map (String.mk ∘ String.toList)
          = pwdSegs (c, p :: anc) := by
        rw [show (String.mk ∘ String.toList) = id from funext fun s => rfl, List.map_id]
      rw [this]
    have hstart : startsWithSlash (getPwd (c, p :: anc)) = true := by
      unfold startsWithSlash
      rw [htl]
      rfl
    simp only [hsplit, hstart, if_true]
    have hfe : List.filter (fun p => !(p == "") && !(p == "."))
        ("" :: pwdSegs (c, p :: anc)) = pwdSegs (c, p :: anc) := by
      rw [List.filter_cons]
      have h0 : ((!(("" : String) == "")) && !(("" : String) == ".")) = false := rfl
      rw [h0]
      simp only [Bool.false_eq_true, if_false]
      exact filter_of_valid _ hvalid
    rw [hfe]
    exact walk_pwdSegs _ _ hgc

/-- C3: after a successful change-directory to a directory path, the printed
working directory is the printed path of the reached node, and that string
is the absolute form of the path — it resolves from the root back to exactly
the reached node; and from any reachable state, change-directory to the
printed working directory succeeds and leaves the current directory
unchanged. -/
theorem C3_pwd_roundtrip (root : FSNode) (cur : Cursor)
    (hg : goodCursor root cur = true) (hcd : cur.1.isDir = true) :
    (∀ p node, p ≠ "" → resolvePath root cur p = some node → node.1.isDir = true →
      cd root cur p = (node, "") ∧
      getPwd (cd root cur p).1 = getPwd node ∧
      resolvePath root (rootCursor root) (getPwd node) = some node) ∧
    cd root cur (getPwd cur) = (cur, "") := by
  constructor
  · intro p node hp hr hd
    have hcd1 : cd root cur p = (node, "") := by
      by_cases ht : p = "~"
      · subst ht
        have : node = (root, []) := by
          have : resolvePath root cur "~" = some (root, []) := rfl
          rw [this] at hr
          simpa using hr.symm
        subst this
        simp [cd]
      · simp [cd, hp, ht, hr, hd]
    refine ⟨hcd1, by rw [hcd1], ?_⟩
    exact resolve_getPwd (resolve_good hg hr) _
  · have hroundr : resolvePath root cur (getPwd cur) = some cur := resolve_getPwd hg cur
    have htl : (getPwd cur).toList = '/' :: (joinWith "/" (pwdSegs cur)).toList := by
      rw [getPwd_eq, toList_append]
      rfl
    have hne : getPwd cur ≠ "" := by
      intro h
      rw [h] at htl
      simp at htl
    have hnt : getPwd cur ≠ "~" := by
      intro h
      rw [h] at htl
      simp at htl
    simp [cd, hne, hnt, hroundr, hcd]

set_option maxRecDepth 4000 in
/-- Witness for C3: from the initial state, `cd exploits` reaches the
`exploits` directory, whose printed path resolves back to it from the root,
and `cd (getPwd)` is a no-op. -/
theorem C3_pwd_roundtrip_witness :
    (cd createInitialFileSystem initialCursor "exploits"
        = ((exploits, [createInitialFileSystem]), "") ∧
      getPwd (cd createInitialFileSystem initialCursor "exploits").1
        = getPwd (exploits, [createInitialFileSystem]) ∧
      resolvePath createInitialFileSystem (rootCursor createInitialFileSystem)
        (getPwd (exploits, [createInitialFileSystem]))
        = some (exploits, [createInitialFileSystem])) ∧
    cd createInitialFileSystem initialCursor (getPwd initialCursor)
      = (initialCursor, "") := by
  have h := C3_pwd_roundtrip createInitialFileSystem initialCursor (by decide) rfl
  exact ⟨h.1 "exploits" (exploits, [createInitialFileSystem]) (by decide) rfl rfl, h.2⟩

/-! ## ls follows the specified formats -/

/-- C4: `ls` yields the not-found error for an unresolvable target, the
file's own name for a file target, the empty string for an empty directory,
and otherwise renders children in stored order — short format with `/`
suffix on directory names joined by double space, long format one line per
child with type char, fixed permissions, size (content byte length for
files, 4096 for directories) and fixed date — as the spec-worded `lsSpec`
does, for every tree whose files have nonempty content (true of the seed). -/
theorem C4_ls_follows_spec (root : FSNode) (cur : Cursor) (args : List String)
    (hroot : filesNonEmpty root = true) (hg : goodCursor root cur = true) :
    ls root cur args = lsSpec root cur args := by
  simp only [ls, lsSpec]
  rw [← resolvePath_eq_spec]
  cases hr : resolvePath root cur
      (match args.head? with
       | some a => if a == "" then "." else a
       | none => ".") with
  | none => rfl
  | some node =>
    have hnode : goodCursor root node = true := resolve_good hg hr
    have hmem : node.1 ∈ nodesOf root := by
      obtain ⟨n1, anc⟩ := node
      exact good_mem_nodesOf anc n1 hnode
    obtain ⟨n1, anc⟩ := node
    cases n1 with
    | file nm co => rfl
    | dir nm cs =>
      simp only
      by_cases hemp : cs.toList.isEmpty = true
      · simp [hemp]
      · simp only [hemp, Bool.false_eq_true, if_false]
        have hlines : cs.toList.map lsLongLine = cs.toList.map lsLongLineSpec := by
          apply List.map_congr_left
          intro child hchild
          have hcm : child ∈ nodesOf root :=
            children_closed_node root _ child hmem (by simpa [FSNode.childrenL] using hchild)
          have hpred := List.all_eq_true.mp hroot child hcm
          cases child with
          | dir nm2 cs2 => rfl
          | file nm2 co2 =>
            cases co2 with
            | none => simp at hpred
            | some c =>
              have hcne : c ≠ "" := by simpa using hpred
              have hlen : c.length ≠ 0 := by
                intro h0
                apply str_toList_ne_nil hcne
                have : c.toList.length = 0 := h0
                exact List.length_eq_zero.mp this
              simp only [lsLongLine, lsLongLineSpec, FSNode.isDir, Option.getD]
              rw [if_neg hlen]
        rw [hlines]

set_option maxRecDepth 8000 in
/-- Witness for C4: the short listing of the initial directory agrees with
the spec-worded rendering. -/
theorem C4_ls_follows_spec_witness :
    ls createInitialFileSystem initialCursor [] = lsSpec createInitialFileSystem initialCursor [] :=
  C4_ls_follows_spec createInitialFileSystem initialCursor [] (by decide) (by decide)

/-! ## ls treats its first argument as the target unconditionally -/

theorem no_child_named_dash_l :
    ∀ x ∈ nodesOf createInitialFileSystem,
      x.childrenL.find? (fun c => c.name == "-l") = none := by
  decide

/-- C8 amended: `ls` takes its target from `args[0]` unconditionally — the
target defaults to the current directory only when `args` is empty or its
first element is the empty string; a flag-only invocation such as
`ls ["-l"]` resolves `-l` as a path, which in the seed tree fails with the
not-found error from every reachable state. -/
theorem C8_flag_only_args_resolve_as_path (cur : Cursor)
    (hg : goodCursor createInitialFileSystem cur = true) :
    (∀ (root' : FSNode) (cur' : Cursor), ls root' cur' [] = ls root' cur' ["."]) ∧
    (∀ (root' : FSNode) (cur' : Cursor) (rest : List String),
      ls root' cur' ("" :: rest) = ls root' cur' ("." :: rest)) ∧
    ls createInitialFileSystem cur ["-l"]
      = "ls: cannot access '-l': No such file or directory" := by
  refine ⟨fun root' cur' => rfl, fun root' cur' rest => rfl, ?_⟩
  have hnone : resolvePath createInitialFileSystem cur "-l" = none := by
    have hwalk : resolvePath createInitialFileSystem cur "-l"
        = walk createInitialFileSystem cur ["-l"] := rfl
    rw [hwalk]
    obtain ⟨c1, anc⟩ := cur
    have hmem : c1 ∈ nodesOf createInitialFileSystem := good_mem_nodesOf anc c1 hg
    cases c1 with
    | file nm co => rfl
    | dir nm cs =>
      have := no_child_named_dash_l _ hmem
      simp only [FSNode.childrenL] at this
      simp [walk, this]
  simp [ls, hnone]

set_option maxRecDepth 8000 in
/-- Witness for C8: from the initial state, `ls ["-l"]` is the not-found
error for the path `-l`. -/
theorem C8_flag_only_witness :
    ls createInitialFileSystem initialCursor ["-l"]
      = "ls: cannot access '-l': No such file or directory" :=
  (C8_flag_only_args_resolve_as_path initialCursor (by decide)).2.2

/-- Counterexample for C8 as stated: `ls ["-l"]` from the initial state is
not a long-format listing of the current directory but a not-found error
naming the path `-l`. -/
theorem C8_counterexample :
    ls createInitialFileSystem initialCursor ["-l"]
      = "ls: cannot access '-l': No such file or directory" ∧
    ls createInitialFileSystem initialCursor ["-l"]
      ≠ ls createInitialFileSystem initialCursor [".", "-l"] :=
  ⟨rfl, by decide⟩

/-! ## Line-feed freeness of rendered pieces -/

theorem digitChar_ne_lf (n : Nat) : Nat.digitChar n ≠ '\n' := by
  rcases Nat.lt_or_ge n 16 with h | h
  · interval_cases n <;> decide
  · have hstar : Nat.digitChar n = '*' := by
      unfold Nat.digitChar
      rw [if_neg (by omega : ¬n = 0), if_neg (by omega : ¬n = 1),
        if_neg (by omega : ¬n = 2), if_neg (by omega : ¬n = 3),
        if_neg (by omega : ¬n = 4), if_neg (by omega : ¬n = 5),
        if_neg (by omega : ¬n = 6), if_neg (by omega : ¬n = 7),
        if_neg (by omega : ¬n = 8), if_neg (by omega : ¬n = 9),
        if_neg (by omega : ¬n = 10), if_neg (by omega : ¬n = 11),
        if_neg (by omega : ¬n = 12), if_neg (by omega : ¬n = 13),
        if_neg (by omega : ¬n = 14), if_neg (by omega : ¬n = 15)]
    rw [hstar]
    decide

theorem toDigitsCore_ne_lf :
    ∀ (f n : Nat) (ds : List Char), (∀ c ∈ ds, c ≠ '\n') →
      ∀ c ∈ Nat.toDigitsCore 10 f n ds, c ≠ '\n' := by
  intro f
  induction f with
  | zero =>
    intro n ds hds c hc
    rw [Nat.toDigitsCore] at hc
    exact hds c hc
  | succ f ih =>
    intro n ds hds c hc
    rw [Nat.toDigitsCore] at hc
    by_cases h : n / 10 = 0
    · simp only [h, if_true] at hc
      rcases List.mem_cons.mp hc with rfl | hc
      · exact digitChar_ne_lf _
      · exact hds c hc
    · simp only [h, if_false] at hc
      refine ih _ _ ?_ c hc
      intro c2 hc2
      rcases List.mem_cons.mp hc2 with rfl | hc2
      · exact digitChar_ne_lf _
      · exact hds c2 hc2

theorem natToString_lf_free (n : Nat) : '\n' ∉ (toString n).toList := by
  intro h
  have h2 : (toString n).toList = Nat.toDigitsCore 10 (n + 1) n [] := rfl
  rw [h2] at h
  exact toDigitsCore_ne_lf (n + 1) n [] (by simp) '\n' h rfl

theorem lfFree_append {a b : String} (ha : '\n' ∉ a.toList) (hb : '\n' ∉ b.toList) :
    '\n' ∉ (a ++ b).toList := by
  rw [toList_append]
  intro h
  rcases List.mem_append.mp h with h | h
  · exact ha h
  · exact hb h

theorem toList_mk (l : List Char) : (String.mk l).toList = l := rfl

theorem padStart_lfFree {s : String} (hs : '\n' ∉ s.toList) (n : Nat) :
    '\n' ∉ (padStart s n).toList := by
  unfold padStart
  refine lfFree_append ?_ hs
  rw [toList_mk]
  intro h
  have := List.eq_of_mem_replicate h
  simp at this

theorem lsLongLine_lfFree {child : FSNode} (hname : '\n' ∉ child.name.toList) :
    '\n' ∉ (lsLongLine child).toList := by
  have htype : '\n' ∉ (if child.isDir then "d" else "-").toList := by
    cases h : child.isDir <;> decide
  simp only [lsLongLine]
  exact lfFree_append (lfFree_append (lfFree_append (lfFree_append (lfFree_append
    (lfFree_append (lfFree_append htype (by decide)) (by decide))
    (padStart_lfFree (natToString_lf_free _) 5)) (by decide)) (by decide)) (by decide)) hname

theorem lfFree_joinWith {sep : String} (hsep : '\n' ∉ sep.toList) :
    ∀ (lines : List String), (∀ s ∈ lines, '\n' ∉ s.toList) →
      '\n' ∉ (joinWith sep lines).toList := by
  intro lines
  induction lines with
  | nil => intro _; simp [joinWith]
  | cons x rest ih =>
    intro hl
    have hx : '\n' ∉ x.toList := hl x (List.mem_cons_self x rest)
    cases rest with
    | nil => exact hx
    | cons y rest2 =>
      have hr : ∀ s ∈ y :: rest2, '\n' ∉ s.toList :=
        fun s hs => hl s (List.mem_cons_of_mem x hs)
      exact lfFree_append (lfFree_append hx hsep) (ih hr)

/-! ## CRLF consistency of joined lines -/

theorem noBareLFAux_of_lfFree :
    ∀ (l : List Char), '\n' ∉ l → ∀ prev, noBareLFAux prev l = true := by
  intro l
  induction l with
  | nil => intro _ prev; rfl
  | cons c rest ih =>
    intro h prev
    simp only [List.mem_cons, not_or] at h
    simp only [noBareLFAux, Bool.and_eq_true]
    exact ⟨by simp [Ne.symm h.1], ih h.2 c⟩

theorem crlf_of_lfFree {s : String} (h : '\n' ∉ s.toList) : crlfConsistent s = true :=
  noBareLFAux_of_lfFree s.toList h 'a'

theorem noBareLFAux_append_crlf :
    ∀ (a : List Char), '\n' ∉ a → ∀ (prev : Char) (b : List Char),
      noBareLFAux prev (a ++ '\r' :: '\n' :: b) = noBareLFAux '\n' b := by
  intro a
  induction a with
  | nil =>
    intro _ prev b
    simp [noBareLFAux]
  | cons c a2 ih =>
    intro h prev b
    simp only [List.mem_cons, not_or] at h
    simp only [List.cons_append, noBareLFAux, List.append_eq]
    rw [ih h.2 c b]
    simp [Ne.symm h.1]

theorem crlf_joinWith :
    ∀ (lines : List String), (∀ s ∈ lines, '\n' ∉ s.toList) →
      crlfConsistent (joinWith "\r\n" lines) = true := by
  have key : ∀ (lines : List String), (∀ s ∈ lines, '\n' ∉ s.toList) →
      ∀ prev, noBareLFAux prev ((joinWith "\r\n" lines).toList) = true := by
    intro lines
    induction lines with
    | nil => intro _ prev; rfl
    | cons x rest ih =>
      intro hl prev
      have hx : '\n' ∉ x.toList := hl x (List.mem_cons_self x rest)
      cases rest with
      | nil => exact noBareLFAux_of_lfFree x.toList hx prev
      | cons y rest2 =>
        have hr : ∀ s ∈ y :: rest2, '\n' ∉ s.toList :=
          fun s hs => hl s (List.mem_cons_of_mem x hs)
        show noBareLFAux prev ((x ++ "\r\n" ++ joinWith "\r\n" (y :: rest2)).toList) = true
        rw [toList_append, toList_append]
        have hcr : ("\r\n" : String).toList = ['\r', '\n'] := rfl
        rw [hcr]
        have hassoc : x.toList ++ ['\r', '\n'] ++ (joinWith "\r\n" (y :: rest2)).toList
            = x.toList ++ '\r' :: '\n' :: (joinWith "\r\n" (y :: rest2)).toList := by
          simp
        rw [hassoc, noBareLFAux_append_crlf x.toList hx]
        exact ih hr '\n'
  intro lines hl
  exact key lines hl 'a'

/-! ## Names below a node stay inside the tree -/

mutual
theorem nodesOf_trans :
    ∀ (n x y : FSNode), x ∈ nodesOf n → y ∈ nodesOf x → y ∈ nodesOf n
  | .file nm c, x, y, hx, hy => by
    simp only [nodesOf, List.mem_singleton] at hx
    subst hx
    exact hy
  | .dir nm cs, x, y, hx, hy => by
    simp only [nodesOf, List.mem_cons] at hx
    rcases hx with rfl | hx
    · exact hy
    · simp only [nodesOf, List.mem_cons]
      exact Or.inr (nodesOfL_trans cs x y hx hy)

theorem nodesOfL_trans :
    ∀ (cs : FSList) (x y : FSNode), x ∈ nodesOfL cs → y ∈ nodesOf x → y ∈ nodesOfL cs
  | .nil, x, y, hx, _ => by simp [nodesOfL] at hx
  | .cons h t, x, y, hx, hy => by
    simp only [nodesOfL, List.mem_append] at hx ⊢
    rcases hx with hx | hx
    · exact Or.inl (nodesOf_trans h x y hx hy)
    · exact Or.inr (nodesOfL_trans t x y hx hy)
end

theorem name_lfFree_of_mem {root x : FSNode}
    (hn : namesLfFree root = true) (hx : x ∈ nodesOf root) :
    '\n' ∉ x.name.toList := by
  have := List.all_eq_true.mp hn x hx
  simpa using this

theorem extendPath_lfFree {p : String} {nm : String}
    (hp : '\n' ∉ p.toList) (hn : '\n' ∉ nm.toList) :
    '\n' ∉ (extendPath p nm).toList := by
  unfold extendPath
  by_cases h : (p == "/") = true
  · simp only [h, if_true]
    exact lfFree_append (by decide) hn
  · simp only [h, Bool.false_eq_true, if_false]
    exact lfFree_append (lfFree_append hp (by decide)) hn

mutual
theorem traverse_lfFree :
    ∀ (n : FSNode) (p : String), '\n' ∉ p.toList →
      (∀ x ∈ nodesOf n, '\n' ∉ x.name.toList) →
      ∀ q ∈ traverse n p, '\n' ∉ q.toList
  | .file nm c, p, hp, _, q, hq => by
    simp only [traverse, List.mem_singleton] at hq
    exact hq ▸ hp
  | .dir nm cs, p, hp, hnames, q, hq => by
    simp only [traverse, List.mem_cons] at hq
    rcases hq with rfl | hq
    · exact hp
    · refine traverseList_lfFree cs p hp ?_ q hq
      intro x hx
      exact hnames x (by simp only [nodesOf, List.mem_cons]; exact Or.inr hx)

theorem traverseList_lfFree :
    ∀ (cs : FSList) (p : String), '\n' ∉ p.toList →
      (∀ x ∈ nodesOfL cs, '\n' ∉ x.name.toList) →
      ∀ q ∈ traverseList cs p, '\n' ∉ q.toList
  | .nil, p, _, _, q, hq => by simp [traverseList] at hq
  | .cons child t, p, hp, hnames, q, hq => by
    simp only [traverseList, List.mem_append] at hq
    have hchildname : '\n' ∉ child.name.toList := by
      refine hnames child ?_
      simp only [nodesOfL, List.mem_append]
      exact Or.inl (mem_nodesOf_self child)
    rcases hq with hq | hq
    · refine traverse_lfFree child _ (extendPath_lfFree hp hchildname) ?_ q hq
      intro x hx
      refine hnames x ?_
      simp only [nodesOfL, List.mem_append]
      exact Or.inl hx
    · refine traverseList_lfFree t p hp ?_ q hq
      intro x hx
      refine hnames x ?_
      simp only [nodesOfL, List.mem_append]
      exact Or.inr hx
end

/-- C9 amended: the line-joining the operations perform themselves — the
long listing of `ls` and the output of `find` — consistently uses CRLF
(whenever the supplied argument strings are themselves free of line feeds),
but `cat` returns the stored file content verbatim, and several seed files
use bare LF line endings, so readFile output is not CRLF-consistent. -/
theorem C9_crlf_line_endings (root : FSNode) (cur : Cursor)
    (hg : goodCursor root cur = true)
    (hnames : namesLfFree root = true) :
    (∀ args, (∀ a ∈ args, '\n' ∉ a.toList) →
      crlfConsistent (ls root cur args) = true) ∧
    (∀ p, '\n' ∉ p.toList → crlfConsistent (find root cur p) = true) ∧
    (∀ p node nm content, resolvePath root cur p = some node →
      node.1 = FSNode.file nm content → cat root cur [p] = content.getD "") := by
  refine ⟨?_, ?_, ?_⟩
  · intro args hargs
    have ht : '\n' ∉ (match args.head? with
        | some a => if a == "" then "." else a
        | none => ".").toList := by
      cases args with
      | nil => decide
      | cons a rest =>
        simp only [List.head?]
        by_cases h : (a == "") = true
        · simp only [h, if_true]
          decide
        · simp only [h, Bool.false_eq_true, if_false]
          exact hargs a (List.mem_cons_self a rest)
    simp only [ls]
    cases hr : resolvePath root cur
        (match args.head? with
         | some a => if a == "" then "." else a
         | none => ".") with
    | none =>
      exact crlf_of_lfFree (lfFree_append (lfFree_append (by decide) ht) (by decide))
    | some node =>
      have hnode : goodCursor root node = true := resolve_good hg hr
      have hmem : node.1 ∈ nodesOf root := by
        obtain ⟨n1, anc⟩ := node
        exact good_mem_nodesOf anc n1 hnode
      obtain ⟨n1, anc⟩ := node
      cases n1 with
      | file nm co =>
        exact crlf_of_lfFree (name_lfFree_of_mem hnames hmem)
      | dir nm cs =>
        simp only
        by_cases hemp : cs.toList.isEmpty = true
        · simp only [hemp, if_true]
          decide
        · simp only [hemp, Bool.false_eq_true, if_false]
          have hchildnames : ∀ child ∈ cs.toList, '\n' ∉ child.name.toList := by
            intro child hchild
            refine name_lfFree_of_mem hnames ?_
            exact children_closed_node root _ child hmem
              (by simpa [FSNode.childrenL] using hchild)
          cases hlong : (args.contains "-la" || args.contains "-l" || args.contains "-al") with
          | true =>
            simp only [hlong, if_true]
            refine crlf_joinWith _ ?_
            intro s hs
            rw [List.mem_map] at hs
            obtain ⟨child, hchild, rfl⟩ := hs
            exact lsLongLine_lfFree (hchildnames child hchild)
          | false =>
            simp only [hlong, Bool.false_eq_true, if_false]
            refine crlf_of_lfFree (lfFree_joinWith (by decide) _ ?_)
            intro s hs
            rw [List.mem_map] at hs
            obtain ⟨child, hchild, rfl⟩ := hs
            have := hchildnames child hchild
            cases hd : child.isDir
            · simpa [hd] using this
            · simp only [hd, if_true]
              exact lfFree_append this (by decide)
  · intro p hp
    simp only [find]
    cases hr : resolvePath root cur p with
    | none =>
      exact crlf_of_lfFree (lfFree_append (lfFree_append (by decide) hp) (by decide))
    | some node =>
      have hnode : goodCursor root node = true := resolve_good hg hr
      have hmem : node.1 ∈ nodesOf root := by
        obtain ⟨n1, anc⟩ := node
        exact good_mem_nodesOf anc n1 hnode
      refine crlf_joinWith _ ?_
      intro q hq
      refine traverse_lfFree node.1 p hp ?_ q hq
      intro x hx
      exact name_lfFree_of_mem hnames (nodesOf_trans root node.1 x hmem hx)
  · intro p node nm content hr hn
    simp [cat, hr, hn]

set_option maxRecDepth 8000 in
/-- Witness for the amended C9: from the initial state, the output of
`find .` is CRLF-consistent. -/
theorem C9_crlf_line_endings_witness :
    crlfConsistent (find createInitialFileSystem initialCursor ".") = true :=
  (C9_crlf_line_endings createInitialFileSystem initialCursor
    (by decide) (by decide)).2.1 "." (by decide)

/-- Counterexample for C9 as stated: `cat secrets/passwords.txt` returns a
multi-line result whose line separator is a bare LF, not CRLF. -/
theorem C9_counterexample :
    cat createInitialFileSystem initialCursor ["secrets/passwords.txt"]
      = "admin:admin123\nroot:toor" ∧
    crlfConsistent (cat createInitialFileSystem initialCursor ["secrets/passwords.txt"]) = false ∧
    '\n' ∈ (cat createInitialFileSystem initialCursor ["secrets/passwords.txt"]).toList :=
  ⟨rfl, by decide, by decide⟩

/-! ## find is the pre-order traversal -/

mutual
theorem dfsPaths_traverse :
    ∀ (n : FSNode) (p : String) (rest : List (FSNode × String)),
      dfsPaths ((n, p) :: rest) = traverse n p ++ dfsPaths rest
  | .file nm c, p, rest => by
    rw [dfsPaths]
    simp [FSNode.childrenL, traverse]
  | .dir nm cs, p, rest => by
    rw [dfsPaths]
    simp only [FSNode.childrenL]
    rw [dfsPathsList_traverse cs p rest]
    simp [traverse]

theorem dfsPathsList_traverse :
    ∀ (cs : FSList) (p : String) (rest : List (FSNode × String)),
      dfsPaths ((cs.toList.map (fun c => (c, extendPath p c.name))) ++ rest)
        = traverseList cs p ++ dfsPaths rest
  | .nil, p, rest => by simp [FSList.toList, traverseList]
  | .cons child t, p, rest => by
    simp only [FSList.toList, List.map_cons, List.cons_append]
    rw [dfsPaths_traverse child (extendPath p child.name)
      (t.toList.map (fun c => (c, extendPath p c.name)) ++ rest)]
    rw [dfsPathsList_traverse t p rest]
    simp [traverseList, List.append_assoc]
end

mutual
theorem traverse_length :
    ∀ (n : FSNode) (p : String), (traverse n p).length = countNodes n
  | .file nm c, p => by simp [traverse, countNodes]
  | .dir nm cs, p => by
    simp [traverse, countNodes, traverseList_length cs p]
    omega

theorem traverseList_length :
    ∀ (cs : FSList) (p : String), (traverseList cs p).length = countList cs
  | .nil, p => by simp [traverseList, countList]
  | .cons child t, p => by
    simp [traverseList, countList, traverse_length child (extendPath p child.name),
      traverseList_length t p]
end

theorem traverse_head (n : FSNode) (p : String) : (traverse n p).head? = some p := by
  cases n <;> simp [traverse]

/-- C6 (amended): an unresolvable starting path yields the error naming it;
otherwise `find` emits one path per node of the subtree in pre-order
(directories before their contents, children in stored order, every node
exactly once), the starting node's display path being the literal supplied
path expression in every case (also for absolute expressions), each
descendant path extending its parent's recorded path, all joined by CRLF. -/
theorem C6_find_preorder (root : FSNode) (cur : Cursor) (p : String) :
    (resolvePath root cur p = none →
      find root cur p = "find: '" ++ p ++ "': No such file or directory") ∧
    (∀ node, resolvePath root cur p = some node →
      find root cur p = joinWith "\r\n" (dfsPaths [(node.1, p)]) ∧
      (dfsPaths [(node.1, p)]).head? = some p ∧
      (dfsPaths [(node.1, p)]).length = countNodes node.1) := by
  constructor
  · intro hr
    simp [find, hr]
  · intro node hr
    have he : dfsPaths [(node.1, p)] = traverse node.1 p := by
      rw [dfsPaths_traverse node.1 p []]
      simp [dfsPaths]
    refine ⟨by simp [find, hr, he], ?_, ?_⟩
    · rw [he]
      exact traverse_head node.1 p
    · rw [he]
      exact traverse_length node.1 p

/-- Witness for the amended C6: from the initial state, `find .` is the
CRLF-joined pre-order path list of the whole tree with display path `.`. -/
theorem C6_find_preorder_witness :
    find createInitialFileSystem initialCursor "."
      = joinWith "\r\n" (dfsPaths [(createInitialFileSystem, ".")]) :=
  (((C6_find_preorder createInitialFileSystem initialCursor ".").2
    (createInitialFileSystem, []) rfl)).1

/-- Counterexample for C6 as stated: the absolute expression `//` resolves
to the root, whose reconstructed absolute path is `/`, yet `find //` emits
the literal `//` as the starting display path — its output differs from the
output for `/` and begins with `//`. -/
theorem C6_counterexample :
    resolvePath createInitialFileSystem initialCursor "//"
      = some (createInitialFileSystem, []) ∧
    getPwd (createInitialFileSystem, ([] : List FSNode)) = "/" ∧
    (find createInitialFileSystem initialCursor "//").toList.take 3 = ['/', '/', '\r'] ∧
    find createInitialFileSystem initialCursor "//"
      ≠ find createInitialFileSystem initialCursor "/" :=
  ⟨rfl, rfl, by decide, by decide⟩

/-! ## completions follow the spec -/

theorem splitAtLastSlash_eq :
    ∀ cs : List Char,
      splitAtLastSlash cs = (lastIdxOf '/' cs).map (fun i => (cs.take i, cs.drop (i + 1))) := by
  intro cs
  induction cs with
  | nil => rfl
  | cons c rest ih =>
    simp only [splitAtLastSlash, lastIdxOf, ih]
    cases h : lastIdxOf '/' rest with
    | some i => simp
    | none =>
      by_cases hc : c = '/'
      · simp [hc]
      · simp [hc]

theorem mk_beq_empty (l : List Char) : (String.mk l == "") = l.isEmpty := by
  cases l with
  | nil => rfl
  | cons c t =>
    have : String.mk (c :: t) ≠ "" := by
      intro h
      have := congrArg String.toList h
      simp [toList_mk] at this
    simp [List.isEmpty, beq_eq_false_iff_ne.mpr this]

/-- C7: tab completion completes the last space-delimited token — with a
`/`, the text before the last `/` (the root when that prefix is empty) is
the directory to search and the text after it the partial name, otherwise
the current directory is searched with the whole token; an unresolvable or
non-directory search target yields the empty list silently; matches are the
children whose names start with the partial name, in stored order,
directories suffixed with `/`. -/
theorem C7_completions_follow_spec (root : FSNode) (cur : Cursor) (input : String) :
    getCompletions root cur input = completionsSpec root cur input := by
  simp only [getCompletions, completionsSpec]
  rw [splitAtLastSlash_eq]
  cases h : lastIdxOf '/' ((jsSplit ' ' input).getLastD "").toList with
  | none =>
    simp only [Option.map_none]
    rfl
  | some i =>
    simp only [Option.map_some']
    rw [← resolvePath_eq_spec]
    rw [mk_beq_empty]
    rfl

end TVfs
